import Mathlib

/-!
Shallow embedding of the release-notes pipeline of `embrace-io/public-actions`
(`release-notes-generator/src/tag-utils.js`, `commit-parser.js`,
`changelog-generator.js`, `index.js`), together with theorems settling the
frozen claims about it.

JavaScript string primitives (split, trim, parseInt, startsWith, includes,
case mapping, localeCompare) are modelled explicitly below.  Two documented
approximations: `localeCompare` is modelled as code-point lexicographic
comparison (the spec describes the comparison as on "plain strings"), and
`toLowerCase` / `toUpperCase` are modelled per-character, which is exact for
the ASCII data this pipeline handles.
-/

namespace PublicActions

/-- The character class of the JavaScript regex `\s` (also the set trimmed by
`String.prototype.trim`). -/
def jsWs (c : Char) : Bool :=
  c = ' ' || c = '\t' || c = '\n' || c = '\x0b' || c = '\x0c' || c = '\r' ||
  c = '\u00a0' || c = '\u1680' || ('\u2000' ≤ c && c ≤ '\u200a') ||
  c = '\u2028' || c = '\u2029' || c = '\u202f' || c = '\u205f' ||
  c = '\u3000' || c = '\ufeff'

/-- JavaScript line terminators: the characters NOT matched by the regex `.`
(without the `s` flag). -/
def jsLineTerm (c : Char) : Bool :=
  c = '\n' || c = '\r' || c = '\u2028' || c = '\u2029'

/-- Splits a character list at every character satisfying `p`, keeping empty
pieces; mirrors JavaScript `String.prototype.split` with a single-character
(or character-class) separator: `"" ↦ [""]`, `"a..b" ↦ ["a","","b"]`. -/
def splitOnPred (p : Char → Bool) : List Char → List (List Char)
  | [] => [[]]
  | c :: cs =>
    if p c then [] :: splitOnPred p cs
    else
      match splitOnPred p cs with
      | [] => [[c]]
      | h :: t => (c :: h) :: t

/-- String wrapper for `splitOnPred`. -/
def splitOnPredS (p : Char → Bool) (s : String) : List String :=
  (splitOnPred p s.data).map (fun l => ⟨l⟩)

/-- Drops trailing characters satisfying `jsWs`. -/
def dropTrailWs (l : List Char) : List Char :=
  (l.reverse.dropWhile jsWs).reverse

/-- JavaScript `String.prototype.trim` on a character list. -/
def jsTrimL (l : List Char) : List Char :=
  dropTrailWs (l.dropWhile jsWs)

/-- JavaScript `String.prototype.trim`. -/
def jsTrim (s : String) : String := ⟨jsTrimL s.data⟩

/-- JavaScript `String.prototype.includes` (substring test). -/
def jsIncludes (s sub : String) : Bool :=
  decide (sub.data <:+: s.data)

/-- JavaScript `toLowerCase`, modelled per character (exact on ASCII). -/
def jsToLower (s : String) : String := ⟨s.data.map Char.toLower⟩

/-- JavaScript `toUpperCase`, modelled per character (exact on ASCII). -/
def jsToUpper (s : String) : String := ⟨s.data.map Char.toUpper⟩

/-- Value of a character as a digit in base 10 or 16, as accepted by
JavaScript `parseInt`. -/
def digitVal (base : Nat) (c : Char) : Option Nat :=
  if '0' ≤ c ∧ c ≤ '9' then some (c.toNat - '0'.toNat)
  else if base = 16 ∧ 'a' ≤ c ∧ c ≤ 'f' then some (c.toNat - 'a'.toNat + 10)
  else if base = 16 ∧ 'A' ≤ c ∧ c ≤ 'F' then some (c.toNat - 'A'.toNat + 10)
  else none

/-- Accumulates the longest leading run of base-`base` digits. -/
def takeDigits (base : Nat) : List Char → Nat → Option Nat
  | [], acc => some acc
  | c :: cs, acc =>
    match digitVal base c with
    | some d => takeDigits base cs (acc * base + d)
    | none => some acc

/-- JavaScript `parseInt(s)` with no radix argument: skip leading whitespace,
optional sign, optional `0x`/`0X` prefix selecting base 16, then the longest
run of digits; `none` models the `NaN` result. -/
def jsParseInt (s : String) : Option Int :=
  let l := s.data.dropWhile jsWs
  let (sign, l1) : Int × List Char :=
    match l with
    | '-' :: rest => (-1, rest)
    | '+' :: rest => (1, rest)
    | rest => (1, rest)
  let (base, l2) : Nat × List Char :=
    match l1 with
    | '0' :: 'x' :: rest => (16, rest)
    | '0' :: 'X' :: rest => (16, rest)
    | rest => (10, rest)
  match l2 with
  | [] => none
  | c :: _ =>
    match digitVal base c with
    | none => none
    | some _ =>
      match takeDigits base (l2.takeWhile (fun c => (digitVal base c).isSome)) 0 with
      | some n => some (sign * n)
      | none => none

/-- The source's `parseInt(x) || 0` idiom: `NaN` (and `±0`) collapse to `0`. -/
def jsParseIntOr0 (s : String) : Int := (jsParseInt s).getD 0

/-- Code-point lexicographic three-way comparison of character lists. -/
def cmpCharList : List Char → List Char → Int
  | [], [] => 0
  | [], _ :: _ => -1
  | _ :: _, [] => 1
  | a :: as, b :: bs =>
    if a < b then -1 else if b < a then 1 else cmpCharList as bs

/-- Model of JavaScript `String.prototype.localeCompare`, taken as plain
code-point lexicographic comparison (the spec, section 4.2, describes the
comparison as acting on "plain strings"). -/
def localeCompareInt (a b : String) : Int := cmpCharList a.data b.data

/-- JavaScript `String.prototype.startsWith`. -/
def jsStartsWith (s t : String) : Bool := t.data.isPrefixOf s.data

/-- JavaScript `Array.prototype.join(sep)`. -/
def joinSep (sep : String) : List String → String
  | [] => ""
  | [s] => s
  | s :: rest => s ++ sep ++ joinSep sep rest

/-- JavaScript `Array.prototype.join('.')`. -/
def joinWithDot : List String → String := joinSep "."

/-- JavaScript `hash.substring(0, 7)`. -/
def shortHash (h : String) : String := ⟨h.data.take 7⟩

/-! ## tag-utils.js -/

/-- Result of the `parseVersion` helper inside `compareSemver`. -/
structure SemverParts where
  major : Int
  minor : Int
  patch : Int
  prerelease : String
  deriving Repr, DecidableEq

/-- The `parseVersion` closure of `compareSemver` in `tag-utils.js`: strip one
leading `v`, split on `.` and `-`, numeric first three components
(`parseInt(_) || 0`), remaining components re-joined with `.` as the
prerelease. -/
def parseVersion (v : String) : SemverParts :=
  let cleaned : String := match v.data with
    | 'v' :: rest => ⟨rest⟩
    | _ => v
  let parts := splitOnPredS (fun c => c = '.' || c = '-') cleaned
  { major := jsParseIntOr0 (parts.getD 0 "")
    minor := jsParseIntOr0 (parts.getD 1 "")
    patch := jsParseIntOr0 (parts.getD 2 "")
    prerelease := joinWithDot (parts.drop 3) }

/-- `compareSemver` from `tag-utils.js`. -/
def compareSemver (a b : String) : Int :=
  let vA := parseVersion a
  let vB := parseVersion b
  if vA.major ≠ vB.major then vA.major - vB.major
  else if vA.minor ≠ vB.minor then vA.minor - vB.minor
  else if vA.patch ≠ vB.patch then vA.patch - vB.patch
  else if vA.prerelease = "" && vB.prerelease = "" then 0
  else if vA.prerelease = "" then 1
  else if vB.prerelease = "" then -1
  else localeCompareInt vA.prerelease vB.prerelease

/-- The sort of `getAllTags` in `tag-utils.js`: the raw `git tag` names sorted
descending via the comparator `(a, b) => compareSemver(b, a)`.  A modern
JavaScript `Array.prototype.sort` with a consistent comparator is a stable
sort by `cmp a b ≤ 0`; it is modelled by the (stable) insertion sort. -/
def sortTagsDesc (tags : List String) : List String :=
  List.insertionSort (fun a b => compareSemver b a ≤ 0) tags

/-- `getPreviousTag` from `tag-utils.js`, with the repository's tag list
(already sorted descending) passed explicitly in place of the `git tag`
call. `Except.error` models the thrown `Error`. -/
def getPreviousTag (allTags : List String) (currentTag : String) :
    Except String (Option String) :=
  match allTags.findIdx? (· = currentTag) with
  | none => .error ("Tag " ++ currentTag ++ " not found in repository")
  | some i =>
    if i = allTags.length - 1 then .ok none
    else .ok (some (allTags.getD (i + 1) ""))

/-- `getLatestTag` from `tag-utils.js` (head of the descending-sorted list;
the inner throw is re-wrapped by the outer catch). -/
def getLatestTag (allTags : List String) : Except String String :=
  match allTags with
  | [] => .error "Failed to get latest tag: No tags found in repository"
  | t :: _ => .ok t

/-- Result type of `resolveTags`. -/
structure TagComparison where
  currentTag : String
  baseTag : String
  deriving Repr, DecidableEq

/-- `resolveTags` from `tag-utils.js`.  External collaborators are passed as
data: `rawTags` the unsorted `git tag` output, `initialCommit` the
`getInitialCommit` result.  The empty string models an absent (falsy) input
for both tag inputs.  The second component collects the `core.info` log
lines emitted during resolution. -/
def resolveTags (rawTags : List String) (initialCommit : String)
    (currentTagInput baseTagInput : String) :
    Except String (TagComparison × List String) :=
  let allTags := sortTagsDesc rawTags
  let curRes : Except String (String × List String) :=
    if currentTagInput = "" || currentTagInput = "latest" then
      match getLatestTag allTags with
      | .error e => .error e
      | .ok t => .ok (t, ["Using latest tag: " ++ t])
    else .ok (currentTagInput, ["Using provided current tag: " ++ currentTagInput])
  match curRes with
  | .error e => .error e
  | .ok (currentTag, logs1) =>
    if baseTagInput = "" then
      match getPreviousTag allTags currentTag with
      | .error e => .error e
      | .ok (some p) =>
        .ok (⟨currentTag, p⟩, logs1 ++ ["Automatically detected previous tag: " ++ p])
      | .ok none =>
        .ok (⟨currentTag, initialCommit⟩,
          logs1 ++ ["This is the first tag, comparing from initial commit: " ++
            shortHash initialCommit])
    else .ok (⟨currentTag, baseTagInput⟩, logs1 ++ ["Using provided base tag: " ++ baseTagInput])

/-! ## commit-parser.js -/

/-- A `(hash, message)` pair as produced by `getCommitsBetween`. -/
structure Commit where
  hash : String
  message : String
  deriving Repr, DecidableEq

/-- Result of `parseCommitMessage`. -/
structure ParsedCommit where
  ticket : String
  type : String
  description : String
  deriving Repr, DecidableEq

/-- Case-insensitive character comparison against a lowercase letter,
modelling the regex `i` flag. -/
def lowEq (c target : Char) : Bool := c.toLower = target

/-- Matches the `(EMBR-\d+)` capture of the ticket regex (with the `i` flag):
the letters `EMBR` case-insensitively, a hyphen, then one or more digits
(greedy).  Returns the captured characters as written plus the remainder. -/
def takeTicket (l : List Char) : Option (List Char × List Char) :=
  match l with
  | c1 :: c2 :: c3 :: c4 :: '-' :: rest =>
    if lowEq c1 'e' && lowEq c2 'm' && lowEq c3 'b' && lowEq c4 'r' then
      match rest.takeWhile Char.isDigit with
      | [] => none
      | ds => some (c1 :: c2 :: c3 :: c4 :: '-' :: ds, rest.dropWhile Char.isDigit)
    else none
  | _ => none

/-- Match condition of the regex tail `\s*(.+)$` on the text after the colon:
some split into a whitespace run and a non-empty remainder free of line
terminators (`.` matches neither `\n`, `\r`, ` ` nor ` `, and `$`
anchors at the very end of the string). -/
def descMatches (l : List Char) : Bool :=
  (List.range l.length).any (fun i =>
    ((l.take i).all jsWs) && ((l.drop i).all (fun c => !jsLineTerm c)))

/-- The regex `/^\[(EMBR-\d+)\]\s+([^:]+):\s*(.+)$/i` of `parseCommitMessage`,
as a deterministic parser over the character list.

The type region runs from just after `]` to the first colon (`[^:]+` cannot
cross a colon).  The regex requires at least one whitespace character
(`\s+`) followed by at least one further character before that colon; the
greedy `\s+`/`[^:]+` boundary only moves whitespace between the two
captures, which the source's `.trim()` removes, so the trimmed type capture
equals the trimmed region `pre`.  Likewise the greedy `\s*`/`(.+)` boundary
after the colon only moves whitespace, so the trimmed description capture
equals the trimmed remainder. -/
def parseCM : List Char → Option ParsedCommit
  | [] => none
  | c0 :: r0 =>
    if c0 = '[' then
      match takeTicket r0 with
      | some (tick, r1) =>
        match r1 with
        | [] => none
        | c5 :: r2 =>
          if c5 = ']' then
            let pre := r2.takeWhile (fun c => !(c = ':'))
            match r2.dropWhile (fun c => !(c = ':')) with
            | [] => none
            | c6 :: r3 =>
              if c6 = ':' then
                if 2 ≤ pre.length && jsWs (pre.headD ':') && descMatches r3 then
                  some { ticket := jsToUpper ⟨tick⟩, type := ⟨jsTrimL pre⟩,
                         description := ⟨jsTrimL r3⟩ }
                else none
              else none
          else none
      | none => none
    else none

/-- `parseCommitMessage` from `commit-parser.js`. -/
def parseCommitMessage (message : String) : Option ParsedCommit :=
  parseCM message.data

/-- `DEFAULT_TYPES` from `commit-parser.js`, in source order. -/
def DEFAULT_TYPES : List (String × String) :=
  [("feature", "Features"), ("feat", "Features"),
   ("fix", "Bug Fixes"), ("hotfix", "Bug Fixes"), ("quickfix", "Bug Fixes"),
   ("patch", "Bug Fixes"),
   ("chore", "Chores"), ("maintenance", "Chores"), ("maint", "Chores"),
   ("docs", "Documentation"), ("doc", "Documentation")]

/-- Lookup in the merged map `{ ...DEFAULT_TYPES, ...additionalTypes }`: a key
present in the caller's overrides wins over the default entry. -/
def typeMapLookup (additionalTypes : List (String × String)) (k : String) :
    Option String :=
  match List.lookup k additionalTypes with
  | some v => some v
  | none => List.lookup k DEFAULT_TYPES

/-- The group name computed by `groupCommits` for a parsed type:
`typeMap[parsed.type.toLowerCase()] || parsed.type`.  JavaScript `||` falls
through not only for an absent key (`undefined`) but also for a key mapped
to the empty string (falsy). -/
def chosenGroupName (additionalTypes : List (String × String)) (ty : String) :
    String :=
  match typeMapLookup additionalTypes (jsToLower ty) with
  | some v => if v = "" then ty else v
  | none => ty

/-- An entry pushed into a group by `groupCommits`. -/
structure GroupEntry where
  ticket : String
  description : String
  hash : String
  deriving Repr, DecidableEq

/-- An entry of the `unmatched` array of `groupCommits`. -/
structure UnmatchedCommit where
  message : String
  hash : String
  deriving Repr, DecidableEq

/-- Result of `groupCommits`.  The `groups` object is modelled as an
association list in key-insertion order (JavaScript objects enumerate
string keys in insertion order). -/
structure GroupedCommits where
  groups : List (String × List GroupEntry)
  unmatched : List UnmatchedCommit
  deriving Repr, DecidableEq

/-- Appends an entry to the named group, creating the group at the end of the
key order on first insertion (`groups[groupName] = []` then `push`). -/
def insertGroup : List (String × List GroupEntry) → String → GroupEntry →
    List (String × List GroupEntry)
  | [], name, e => [(name, [e])]
  | (n, es) :: rest, name, e =>
    if n = name then (n, es ++ [e]) :: rest
    else (n, es) :: insertGroup rest name e

/-- One iteration of the `for (const commit of commits)` loop of
`groupCommits`. -/
def processCommit (additionalTypes : List (String × String))
    (st : GroupedCommits) (c : Commit) : GroupedCommits :=
  if jsStartsWith c.message "Merge " then st
  else
    match parseCommitMessage c.message with
    | some p =>
      { st with groups := (insertGroup st.groups (chosenGroupName additionalTypes p.type)
          ⟨p.ticket, p.description, shortHash c.hash⟩) }
    | none =>
      { st with unmatched := st.unmatched ++ [⟨c.message, shortHash c.hash⟩] }

/-- `groupCommits` from `commit-parser.js`. -/
def groupCommits (commits : List Commit)
    (additionalTypes : List (String × String)) : GroupedCommits :=
  commits.foldl (processCommit additionalTypes) ⟨[], []⟩

/-- The fixed priority list of `sortGroupNames`. -/
def priorityOrder : List String := ["Features", "Bug Fixes", "Documentation", "Chores"]

/-- JavaScript `Array.prototype.indexOf` (−1 when absent). -/
def jsIndexOf (l : List String) (x : String) : Int :=
  match l.findIdx? (· = x) with
  | some i => (i : Int)
  | none => -1

/-- The comparator of `sortGroupNames`. -/
def groupCmp (a b : String) : Int :=
  let aIndex := jsIndexOf priorityOrder a
  let bIndex := jsIndexOf priorityOrder b
  if aIndex ≠ -1 && bIndex ≠ -1 then aIndex - bIndex
  else if aIndex ≠ -1 then -1
  else if bIndex ≠ -1 then 1
  else localeCompareInt a b

/-- `sortGroupNames` from `commit-parser.js`: a modern JavaScript
`Array.prototype.sort` with a consistent comparator is a stable sort by
`cmp a b ≤ 0`; it is modelled by the (stable) insertion sort. -/
def sortGroupNames (groupNames : List String) : List String :=
  List.insertionSort (fun a b => groupCmp a b ≤ 0) groupNames

/-- `getCommitsBetween` from `commit-parser.js`, with the raw output of
`git log base..current --pretty=format:"%H|%s"` passed explicitly: trim,
split into lines, split each line on every `|` and keep the first two
fields (the JavaScript destructuring `[hash, message]` discards the rest;
a missing second field would be `undefined`, modelled by `""` and
unreachable for well-formed `%H|%s` lines). -/
def getCommitsBetween (gitLog : String) : List Commit :=
  let t := jsTrim gitLog
  if t = "" then []
  else
    (splitOnPred (fun c => c = '\n') t.data).map (fun line =>
      let parts := splitOnPred (fun c => c = '|') line
      { hash := ⟨parts.headD []⟩, message := ⟨parts.getD 1 []⟩ })

/-! ## changelog-generator.js -/

/-- `generateChangelog` from `changelog-generator.js`.  The wall-clock date
string computed by `formatDate()` is passed as the `date` parameter.  The
source indexes `groupedCommits.groups[groupName]`; for a name that is not a
key this is `undefined` (and the subsequent `for...of` would throw), so the
lookup is defaulted to `[]` here — the claims range over name lists drawn
from the keys of `groups`. -/
def generateChangelog (version : String) (groupedCommits : GroupedCommits)
    (sortedGroupNames : List String) (includeUnmatched : Bool) (date : String) :
    String :=
  let changelog := "## " ++ version ++ "\n*" ++ date ++ "*\n\n"
  if sortedGroupNames.length = 0 && groupedCommits.unmatched.length = 0 then
    changelog ++ "_No changes recorded._\n\n"
  else
    let changelog := sortedGroupNames.foldl (fun acc groupName =>
      let items := (List.lookup groupName groupedCommits.groups).getD []
      let acc := acc ++ "### " ++ groupName ++ "\n\n"
      let acc := items.foldl (fun a item =>
        a ++ "- **" ++ item.ticket ++ "**: " ++ item.description ++ "\n") acc
      acc ++ "\n") changelog
    if includeUnmatched && 0 < groupedCommits.unmatched.length then
      (groupedCommits.unmatched.foldl (fun a item =>
        a ++ "- " ++ item.message ++ " (`" ++ item.hash ++ "`)\n")
        (changelog ++ "### Other\n\n")) ++ "\n"
    else changelog

/-- The insertion-point scan of `updateChangelogFile`: index just past the
first line starting with `# `, then past any following lines that are blank
after trimming; `0` if no such heading line exists. -/
def findInsertIndex (lines : List String) : Nat :=
  match lines.findIdx? (fun l => jsStartsWith l "# ") with
  | none => 0
  | some i => i + 1 + ((lines.drop (i + 1)).takeWhile (fun l => jsTrim l = "")).length

/-- `updateChangelogFile` from `changelog-generator.js`, as a pure function of
the filesystem state: `fileExists`/`fileContent` model the
`fs.existsSync`/`fs.readFileSync` pair.  Returns the resulting file content
and whether a write was performed (`false` models the "version already
exists, skipping update" early return; the file content is then unchanged —
and when the file did not exist, nothing is created, the first component
being only the in-memory synthesized header in that case). -/
def updateChangelogFile (fileExists : Bool)
    (fileContent version changelogContent : String) : String × Bool :=
  let existingContent := if fileExists then fileContent else "# Changelog\n\n"
  if jsIncludes existingContent ("## " ++ version) then (existingContent, false)
  else
    let lines := splitOnPredS (fun c => c = '\n') existingContent
    let insertIndex := findInsertIndex lines
    let newContent :=
      joinSep "\n" (lines.take insertIndex) ++ "\n" ++ changelogContent ++
        joinSep "\n" (lines.drop insertIndex)
    (newContent, true)

/-! ## index.js -/

/-- The configuration surface of `run` that the modelled steps consume. -/
structure RunConfig where
  currentTag : String
  baseTag : String
  includeUnmatched : Bool
  updateChangelog : Bool
  createRelease : Bool
  additionalTypes : List (String × String)
  deriving Repr

/-- Behaviour of the external collaborators during one run: the `git tag`
list, the initial commit, the outcome of the `git log` call, the changelog
file state, an injected filesystem write failure, and the outcome of the
release-API publish step (URL or error). -/
structure RunEnv where
  rawTags : List String
  initialCommit : String
  gitLogResult : Except String String
  fileExists : Bool
  fileContent : String
  fsWriteError : Option String
  publishResult : Except String String
  date : String
  deriving Repr

/-- Observable outcome of `run`: the `core.setOutput` pairs, the
`core.warning` messages, and the `core.setFailed` message if any. -/
structure RunResult where
  outputs : List (String × String)
  warnings : List String
  failedWith : Option String
  deriving Repr, DecidableEq

/-- The fallible persist step (Step 6 of `run`): `updateChangelogFile` throws
only on filesystem failure, which is injected via `env.fsWriteError` and
can only surface when a write is actually attempted. -/
def updateChangelogFileIO (env : RunEnv) (version content : String) :
    Except String (String × Bool) :=
  match updateChangelogFile env.fileExists env.fileContent version content with
  | (c, true) =>
    match env.fsWriteError with
    | some e => .error e
    | none => .ok (c, true)
  | (c, false) => .ok (c, false)

/-- `run` from `index.js`: resolve tags, fetch and classify commits, render,
set the three outputs, then optionally persist the changelog file and
optionally publish a release — each of the last two wrapped in its own
`try`/`catch` that downgrades a throw to `core.warning`.  Errors escaping
the outer `try` hit `core.setFailed`. -/
def run (cfg : RunConfig) (env : RunEnv) : RunResult :=
  match resolveTags env.rawTags env.initialCommit cfg.currentTag cfg.baseTag with
  | .error e => { outputs := [], warnings := [], failedWith := some ("Action failed: " ++ e) }
  | .ok (tags, _logs) =>
    match env.gitLogResult with
    | .error e =>
      { outputs := [], warnings := [],
        failedWith := some ("Action failed: Failed to get commits: " ++ e) }
    | .ok gitLog =>
      let commits := getCommitsBetween gitLog
      let grouped := groupCommits commits cfg.additionalTypes
      let sorted := sortGroupNames (grouped.groups.map Prod.fst)
      let changelog := generateChangelog tags.currentTag grouped sorted
        cfg.includeUnmatched env.date
      let outputs0 := [("changelog", changelog), ("current_tag", tags.currentTag),
        ("base_tag", tags.baseTag)]
      let warnings1 :=
        if cfg.updateChangelog then
          match updateChangelogFileIO env tags.currentTag changelog with
          | .error e => ["Failed to update CHANGELOG.md: " ++ e]
          | .ok _ => []
        else []
      let step7 :=
        if cfg.createRelease then
          match env.publishResult with
          | .ok url => (outputs0 ++ [("release_url", url)], warnings1)
          | .error e => (outputs0, warnings1 ++ ["Failed to create/update release: " ++ e])
        else (outputs0, warnings1)
      { outputs := step7.1, warnings := step7.2, failedWith := none }

end PublicActions

namespace PublicActions

/-! ## Helper lemmas on the string primitives -/

theorem strAppend_assoc (a b c : String) : a ++ b ++ c = a ++ (b ++ c) := by
  apply String.ext
  simp [String.data_append]

theorem strAppend_empty (a : String) : a ++ "" = a := by
  apply String.ext
  simp [String.data_append]

/-- Concatenation of a list of strings (the declarative counterpart of the
string-accumulator folds in `generateChangelog`). -/
def strConcat : List String → String
  | [] => ""
  | s :: rest => s ++ strConcat rest

theorem foldl_strAppend (f : α → String) (l : List α) (acc : String) :
    l.foldl (fun a x => a ++ f x) acc = acc ++ strConcat (l.map f) := by
  induction l generalizing acc with
  | nil => simp [strConcat, strAppend_empty]
  | cons x xs ih => simp [List.foldl_cons, ih, strConcat, strAppend_assoc]

theorem takeWhile_append_cons {α : Type} (p : α → Bool) (l : List α) (x : α)
    (r : List α) (hl : l.all p = true) (hx : p x = false) :
    (l ++ x :: r).takeWhile p = l ∧ (l ++ x :: r).dropWhile p = x :: r := by
  induction l with
  | nil => simp [List.takeWhile_cons, List.dropWhile_cons, hx]
  | cons a as ih =>
    simp only [List.all_cons, Bool.and_eq_true] at hl
    simp [List.takeWhile_cons, List.dropWhile_cons, hl.1, ih hl.2]

theorem dropWhile_all_append {α : Type} (p : α → Bool) (l r : List α)
    (h : l.all p = true) : (l ++ r).dropWhile p = r.dropWhile p := by
  induction l with
  | nil => simp
  | cons a as ih =>
    simp only [List.all_cons, Bool.and_eq_true] at h
    simp [List.dropWhile_cons, h.1, ih h.2]

theorem jsTrimL_ws_append (w l : List Char) (h : w.all jsWs = true) :
    jsTrimL (w ++ l) = jsTrimL l := by
  unfold jsTrimL
  rw [dropWhile_all_append jsWs w l h]

theorem jsTrimL_eq_self (l : List Char)
    (h1 : ∀ c, l.head? = some c → jsWs c = false)
    (h2 : ∀ c, l.getLast? = some c → jsWs c = false) :
    jsTrimL l = l := by
  unfold jsTrimL dropTrailWs
  have hd : l.dropWhile jsWs = l := by
    cases l with
    | nil => rfl
    | cons c cs => simp [List.dropWhile_cons, h1 c rfl]
  rw [hd]
  have hr : l.reverse.dropWhile jsWs = l.reverse := by
    cases hrev : l.reverse with
    | nil => rfl
    | cons c cs =>
      have : l.getLast? = some c := by
        rw [← List.head?_reverse, hrev]
        rfl
      simp [List.dropWhile_cons, h2 c this]
  rw [hr, List.reverse_reverse]

theorem splitOnPred_ne_nil (p : Char → Bool) (l : List Char) :
    splitOnPred p l ≠ [] := by
  cases l with
  | nil => simp [splitOnPred]
  | cons c cs =>
    unfold splitOnPred
    by_cases h : p c = true
    · simp [h]
    · simp only [Bool.not_eq_true] at h
      simp only [h]
      cases splitOnPred p cs <;> simp

theorem splitOnPred_all_neg (p : Char → Bool) (l : List Char)
    (h : ∀ c ∈ l, p c = false) : splitOnPred p l = [l] := by
  induction l with
  | nil => rfl
  | cons c cs ih =>
    have hc := h c (by simp)
    have ihs := ih (fun d hd => h d (by simp [hd]))
    unfold splitOnPred
    simp [hc, ihs]

theorem splitOnPred_append_cons (p : Char → Bool) (a : List Char) (x : Char)
    (b : List Char) (ha : ∀ c ∈ a, p c = false) (hx : p x = true) :
    splitOnPred p (a ++ x :: b) = a :: splitOnPred p b := by
  induction a with
  | nil => simp [splitOnPred, hx]
  | cons c cs ih =>
    have hc := ha c (by simp)
    have ihs := ih (fun d hd => ha d (by simp [hd]))
    simp only [List.cons_append, splitOnPred, hc, List.append_eq]
    simp only [Bool.false_eq_true, if_false]
    rw [ihs]

theorem splitOnPred_head (p : Char → Bool) (l : List Char) :
    (splitOnPred p l).head? = some (l.takeWhile (fun c => !p c)) := by
  induction l with
  | nil => rfl
  | cons c cs ih =>
    unfold splitOnPred
    by_cases h : p c = true
    · simp [h, List.takeWhile_cons]
    · simp only [Bool.not_eq_true] at h
      simp only [h]
      cases hs : splitOnPred p cs with
      | nil => exact absurd hs (splitOnPred_ne_nil p cs)
      | cons hd tl =>
        rw [hs] at ih
        simp only [List.head?_cons, Option.some.injEq] at ih
        simp [List.takeWhile_cons, h, ← ih]

/-- C1: for tags with equal numeric major, minor and patch components,
`compareSemver` returns 0 when neither has a prerelease suffix, a positive
value when only the first lacks one, a negative value when only the second
lacks one, and the plain lexicographic comparison of the suffixes when both
have one; in particular `compareSemver "v1.0.0" "v1.0.0-rc1" > 0` and
`compareSemver "v1.0.0-rc2" "v1.0.0-rc1" > 0`. -/
theorem compareSemver_prerelease_spec (a b : String)
    (hmaj : (parseVersion a).major = (parseVersion b).major)
    (hmin : (parseVersion a).minor = (parseVersion b).minor)
    (hpat : (parseVersion a).patch = (parseVersion b).patch) :
    ((parseVersion a).prerelease = "" → (parseVersion b).prerelease = "" →
      compareSemver a b = 0)
    ∧ ((parseVersion a).prerelease = "" → (parseVersion b).prerelease ≠ "" →
      0 < compareSemver a b)
    ∧ ((parseVersion a).prerelease ≠ "" → (parseVersion b).prerelease = "" →
      compareSemver a b < 0)
    ∧ ((parseVersion a).prerelease ≠ "" → (parseVersion b).prerelease ≠ "" →
      compareSemver a b =
        localeCompareInt (parseVersion a).prerelease (parseVersion b).prerelease)
    ∧ 0 < compareSemver "v1.0.0" "v1.0.0-rc1"
    ∧ 0 < compareSemver "v1.0.0-rc2" "v1.0.0-rc1" := by
  refine ⟨?_, ?_, ?_, ?_, by decide, by decide⟩ <;>
  · intro h1 h2
    simp [compareSemver, hmaj, hmin, hpat, h1, h2]

/-- Witness for C1 at concrete tags. -/
theorem compareSemver_prerelease_spec_witness :
    0 < compareSemver "v1.0.0" "v1.0.0-rc1" :=
  (compareSemver_prerelease_spec "v1.0.0" "v1.0.0-rc1" rfl rfl rfl).2.1
    (by decide) (by decide)

end PublicActions

namespace PublicActions

theorem jsTrim_eq_self_of_ends (l : List Char)
    (h1 : ∀ c, l.head? = some c → jsWs c = false)
    (h2 : ∀ c, l.getLast? = some c → jsWs c = false) :
    jsTrim ⟨l⟩ = (⟨l⟩ : String) := by
  unfold jsTrim
  rw [jsTrimL_eq_self l h1 h2]

/-- C10: `getCommitsBetween` splits each log line on every `|` and keeps only
the first two fields; for a subject `s` containing `|`, the stored message
is the part of `s` strictly before its first `|` and the rest is dropped. -/
theorem getCommitsBetween_pipe_truncation (h s : String)
    (hne : h.data ≠ [])
    (hh : ∀ c ∈ h.data, c ≠ '|' ∧ jsWs c = false)
    (hs1 : ∀ c ∈ s.data, c ≠ '\n')
    (hs2 : ∀ c, s.data.getLast? = some c → jsWs c = false) :
    getCommitsBetween (h ++ "|" ++ s) =
      [⟨h, ⟨s.data.takeWhile (fun c => !(c = '|'))⟩⟩] := by
  have hdata : (h ++ "|" ++ s).data = h.data ++ '|' :: s.data := by
    simp [String.data_append]
  have htrim : jsTrim (h ++ "|" ++ s) = h ++ "|" ++ s := by
    have := jsTrim_eq_self_of_ends (h.data ++ '|' :: s.data)
      (fun c hc => by
        cases hd : h.data with
        | nil => exact absurd hd hne
        | cons a as =>
          rw [hd] at hc
          simp only [List.cons_append, List.head?_cons, Option.some.injEq] at hc
          subst hc
          exact (hh a (by rw [hd]; simp)).2)
      (fun c hc => by
        rw [List.getLast?_append_cons] at hc
        cases hsd : s.data with
        | nil =>
          rw [hsd] at hc
          simp only [List.getLast?_singleton, Option.some.injEq] at hc
          subst hc
          decide
        | cons b bs =>
          rw [hsd, List.getLast?_cons_cons] at hc
          exact hs2 c (by rw [hsd]; exact hc))
    calc jsTrim (h ++ "|" ++ s) = jsTrim ⟨h.data ++ '|' :: s.data⟩ := by rw [← hdata]
      _ = ⟨h.data ++ '|' :: s.data⟩ := this
      _ = h ++ "|" ++ s := by apply String.ext; simp [hdata]
  unfold getCommitsBetween
  rw [htrim]
  have hne2 : h ++ "|" ++ s ≠ "" := by
    intro he
    have : (h ++ "|" ++ s).data = [] := by rw [he]
    rw [hdata] at this
    simp at this
  rw [if_neg hne2, hdata]
  have hnl : ∀ c ∈ h.data ++ '|' :: s.data, (decide (c = '\n')) = false := by
    intro c hc
    simp only [List.mem_append, List.mem_cons] at hc
    rcases hc with hc | hc | hc
    · have := (hh c hc).2
      simp only [decide_eq_false_iff_not]
      intro he
      subst he
      simp [jsWs] at this
    · subst hc; decide
    · simp only [decide_eq_false_iff_not]
      exact hs1 c hc
  rw [splitOnPred_all_neg _ _ hnl]
  simp only [List.map_cons, List.map_nil]
  have hsplit : splitOnPred (fun c => c = '|') (h.data ++ '|' :: s.data) =
      h.data :: splitOnPred (fun c => c = '|') s.data := by
    apply splitOnPred_append_cons
    · intro c hc
      simp only [decide_eq_false_iff_not]
      exact (hh c hc).1
    · decide
  rw [hsplit]
  have hhead := splitOnPred_head (fun c => c = '|') s.data
  congr 1
  cases hsp : splitOnPred (fun c => c = '|') s.data with
  | nil => exact absurd hsp (splitOnPred_ne_nil _ _)
  | cons hd tl =>
    rw [hsp] at hhead
    simp only [List.head?_cons, Option.some.injEq] at hhead
    refine congrArg₂ Commit.mk ?_ ?_
    · apply String.ext; simp [List.headD]
    · simp only [List.getD, List.get?_eq_getElem?]
      apply String.ext
      simp [← hhead]

/-- Witness for C10 at a concrete hash and a subject containing `|`. -/
theorem getCommitsBetween_pipe_truncation_witness :
    getCommitsBetween ("abc123" ++ "|" ++ "fix: a|extra") =
      [⟨"abc123", "fix: a"⟩] := by
  have := getCommitsBetween_pipe_truncation "abc123" "fix: a|extra"
    (by decide) (by decide) (by decide) (by decide)
  rw [this]
  rfl

end PublicActions

namespace PublicActions

theorem updateChangelogFile_skip (c version content : String)
    (h : jsIncludes c ("## " ++ version) = true) :
    updateChangelogFile true c version content = (c, false) := by
  unfold updateChangelogFile
  simp [h]

theorem updateChangelogFile_writes_contains (e : Bool) (c version content : String)
    (h : jsIncludes content ("## " ++ version) = true) :
    jsIncludes (updateChangelogFile e c version content).1 ("## " ++ version) = true := by
  unfold updateChangelogFile
  by_cases hin : jsIncludes (if e = true then c else "# Changelog\n\n") ("## " ++ version) = true
  · simp only [hin, if_true]
  · simp only [Bool.not_eq_true] at hin
    simp only [hin, Bool.false_eq_true, if_false]
    unfold jsIncludes at h ⊢
    rw [decide_eq_true_eq] at h ⊢
    refine h.trans ?_
    refine ⟨(joinSep "\n" ((splitOnPredS (fun c => c = '\n')
        (if e = true then c else "# Changelog\n\n")).take
          (findInsertIndex (splitOnPredS (fun c => c = '\n')
            (if e = true then c else "# Changelog\n\n")))) ++ "\n").data,
      (joinSep "\n" ((splitOnPredS (fun c => c = '\n')
        (if e = true then c else "# Changelog\n\n")).drop
          (findInsertIndex (splitOnPredS (fun c => c = '\n')
            (if e = true then c else "# Changelog\n\n"))))).data, ?_⟩
    simp [String.data_append, List.append_assoc]

/-- C7: when the existing changelog content already contains the `## <tag>`
heading, `updateChangelogFile` performs no write (content unchanged,
returning `false` instead of throwing), so persisting the same tag section
twice is a no-op and a tag's section appears at most once. -/
theorem updateChangelogFile_idempotent (c version content : String) (e : Bool) :
    (jsIncludes c ("## " ++ version) = true →
      updateChangelogFile true c version content = (c, false))
    ∧ (jsIncludes content ("## " ++ version) = true →
      updateChangelogFile true (updateChangelogFile e c version content).1 version content =
        ((updateChangelogFile e c version content).1, false)) :=
  ⟨fun h => updateChangelogFile_skip c version content h,
   fun h => updateChangelogFile_skip _ version content
     (updateChangelogFile_writes_contains e c version content h)⟩

/-- Witness for C7: persisting `v1.0.0` into a file already holding its
section is a no-op reporting `false`. -/
theorem updateChangelogFile_idempotent_witness :
    updateChangelogFile true "# Changelog\n\n## v1.0.0\nold" "v1.0.0" "## v1.0.0\nnew\n\n" =
      ("# Changelog\n\n## v1.0.0\nold", false) :=
  (updateChangelogFile_idempotent "# Changelog\n\n## v1.0.0\nold" "v1.0.0"
    "## v1.0.0\nnew\n\n" true).1 (by decide)

end PublicActions

namespace PublicActions

/-- C6: after the `## <tag>` header and the date line, `generateChangelog`
produces exactly `_No changes recorded._` plus a blank line when there are
no groups and no unmatched entries; otherwise one `### <GroupName>` section
per given name (blank line, one `- **<ticket>**: <description>` line per
entry, trailing blank line), and — when include-unmatched is set and
unmatched entries exist — a final `### Other` section with one
`- <message> (\x60<hash>\x60)` line per entry and a trailing blank line. -/
theorem generateChangelog_structure (version : String) (g : GroupedCommits)
    (names : List String) (inc : Bool) (date : String) :
    generateChangelog version g names inc date =
      "## " ++ version ++ "\n*" ++ date ++ "*\n\n" ++
        (if names = [] ∧ g.unmatched = [] then "_No changes recorded._\n\n"
         else
           strConcat (names.map (fun n =>
             "### " ++ n ++ "\n\n" ++
             strConcat (((List.lookup n g.groups).getD []).map (fun item =>
               "- **" ++ item.ticket ++ "**: " ++ item.description ++ "\n")) ++ "\n")) ++
           (if inc = true ∧ g.unmatched ≠ [] then
             "### Other\n\n" ++
             strConcat (g.unmatched.map (fun item =>
               "- " ++ item.message ++ " (`" ++ item.hash ++ "`)\n")) ++ "\n"
            else "")) := by
  unfold generateChangelog
  by_cases h : names = [] ∧ g.unmatched = []
  · simp [h.1, h.2]
  · have hb : (names.length = 0 && g.unmatched.length = 0) = false := by
      rcases not_and_or.mp h with h1 | h1 <;>
        simp [List.length_eq_zero, h1, Bool.and_eq_false_iff]
    simp only [hb, Bool.false_eq_true, if_false, if_neg h]
    by_cases hi : inc = true
    · by_cases hu : g.unmatched = []
      · simp only [hi, hu, List.length_nil, lt_irrefl, and_false, if_false,
          Bool.and_eq_false_iff, and_true, ne_eq, not_true_eq_false]
        simp only [strAppend_assoc, foldl_strAppend]
        simp [strAppend_empty, strAppend_assoc]
      · have hl : (inc && decide (0 < g.unmatched.length)) = true := by
          simp [hi, List.length_pos, hu]
        simp only [hi, hl, if_true, true_and, ne_eq, hu, not_false_eq_true, if_pos]
        simp only [strAppend_assoc, foldl_strAppend]
        simp [strAppend_empty, strAppend_assoc]
        exact fun hc => absurd hc hu
    · have hl : (inc && decide (0 < g.unmatched.length)) = false := by
        simp only [Bool.not_eq_true] at hi
        simp [hi]
      simp only [hl, Bool.false_eq_true, if_false]
      have : ¬(inc = true ∧ g.unmatched ≠ []) := fun hc => hi hc.1
      simp only [if_neg this]
      simp only [strAppend_assoc, foldl_strAppend]
      simp [strAppend_empty, strAppend_assoc]

end PublicActions

namespace PublicActions

/-- Spec-side characterization (from the claim's words) of which commits end
up in `unmatched` and with what fields. -/
def specUnmatched (c : Commit) : Option UnmatchedCommit :=
  if jsStartsWith c.message "Merge " then none
  else
    match parseCommitMessage c.message with
    | some _ => none
    | none => some ⟨c.message, shortHash c.hash⟩

/-- Spec-side characterization (from the claim's words) of which commits end
up in the group named `g` and with what fields. -/
def specGroupEntry (additionalTypes : List (String × String)) (g : String)
    (c : Commit) : Option GroupEntry :=
  if jsStartsWith c.message "Merge " then none
  else
    match parseCommitMessage c.message with
    | some p =>
      if chosenGroupName additionalTypes p.type = g then
        some ⟨p.ticket, p.description, shortHash c.hash⟩
      else none
    | none => none

theorem foldl_process_filter_merge (a : List (String × String)) (l : List Commit) :
    ∀ st : GroupedCommits,
      l.foldl (processCommit a) st =
        (l.filter (fun c => !(jsStartsWith c.message "Merge "))).foldl (processCommit a) st := by
  induction l with
  | nil => intro st; rfl
  | cons c cs ih =>
    intro st
    by_cases hm : jsStartsWith c.message "Merge " = true
    · have hst : processCommit a st c = st := by
        unfold processCommit
        simp [hm]
      simp [List.filter_cons, hm, hst, ih]
    · simp only [Bool.not_eq_true] at hm
      simp [List.filter_cons, hm, ih]

theorem foldl_process_unmatched (a : List (String × String)) (l : List Commit) :
    ∀ st : GroupedCommits,
      (l.foldl (processCommit a) st).unmatched = st.unmatched ++ l.filterMap specUnmatched := by
  induction l with
  | nil => intro st; simp
  | cons c cs ih =>
    intro st
    by_cases hm : jsStartsWith c.message "Merge " = true
    · have hst : processCommit a st c = st := by
        unfold processCommit
        simp [hm]
      simp [List.filterMap_cons, specUnmatched, hm, hst, ih]
    · simp only [Bool.not_eq_true] at hm
      cases hp : parseCommitMessage c.message with
      | some p =>
        have hst : (processCommit a st c).unmatched = st.unmatched := by
          unfold processCommit
          simp [hm, hp]
        simp only [List.foldl_cons, List.filterMap_cons, specUnmatched, hm,
          Bool.false_eq_true, if_false, hp]
        rw [ih, hst]
      | none =>
        have hst : (processCommit a st c).unmatched =
            st.unmatched ++ [⟨c.message, shortHash c.hash⟩] := by
          unfold processCommit
          simp [hm, hp]
        simp only [List.foldl_cons, List.filterMap_cons, specUnmatched, hm,
          Bool.false_eq_true, if_false, hp]
        rw [ih, hst, List.append_assoc]
        rfl

theorem lookup_insertGroup (gs : List (String × List GroupEntry)) (n g : String)
    (e : GroupEntry) :
    List.lookup g (insertGroup gs n e) =
      if g = n then some (((List.lookup g gs).getD []) ++ [e])
      else List.lookup g gs := by
  induction gs with
  | nil =>
    by_cases h : g = n
    · simp [insertGroup, List.lookup, h]
    · simp [insertGroup, List.lookup, h, beq_false_of_ne h]
  | cons kv rest ih =>
    obtain ⟨k, es⟩ := kv
    by_cases hk : k = n
    · subst hk
      by_cases hg : g = k
      · subst hg
        simp [insertGroup, List.lookup]
      · simp [insertGroup, List.lookup, hg, beq_false_of_ne hg]
    · by_cases hg : g = k
      · subst hg
        simp [insertGroup, List.lookup, hk]
      · simp only [insertGroup, if_neg hk, List.lookup, beq_false_of_ne hg]
        exact ih

theorem foldl_process_groups (a : List (String × String)) (g : String)
    (l : List Commit) :
    ∀ st : GroupedCommits,
      (List.lookup g (l.foldl (processCommit a) st).groups).getD [] =
        (List.lookup g st.groups).getD [] ++ l.filterMap (specGroupEntry a g) := by
  induction l with
  | nil => intro st; simp
  | cons c cs ih =>
    intro st
    by_cases hm : jsStartsWith c.message "Merge " = true
    · have hst : processCommit a st c = st := by
        unfold processCommit
        simp [hm]
      simp [List.filterMap_cons, specGroupEntry, hm, hst, ih]
    · simp only [Bool.not_eq_true] at hm
      cases hp : parseCommitMessage c.message with
      | some p =>
        have hst : (processCommit a st c).groups =
            insertGroup st.groups (chosenGroupName a p.type)
              ⟨p.ticket, p.description, shortHash c.hash⟩ := by
          unfold processCommit
          simp [hm, hp]
        simp only [List.foldl_cons, List.filterMap_cons, specGroupEntry, hm,
          Bool.false_eq_true, if_false, hp]
        rw [ih, hst, lookup_insertGroup]
        by_cases hg : chosenGroupName a p.type = g
        · simp [hg, List.append_assoc]
        · have hg2 : ¬(g = chosenGroupName a p.type) := fun h => hg h.symm
          simp [hg, hg2]
      | none =>
        have hst : (processCommit a st c).groups = st.groups := by
          unfold processCommit
          simp [hm, hp]
        simp only [List.foldl_cons, List.filterMap_cons, specGroupEntry, hm,
          Bool.false_eq_true, if_false, hp]
        rw [ih, hst]

/-- C2: `groupCommits` drops every commit whose message starts with the
literal token `Merge ` (affecting neither groups nor unmatched); every
remaining non-matching commit becomes an unmatched entry
`{message, hash shortened to 7 characters}` in the original commit order;
and within each group, entries appear in the original commit order. -/
theorem groupCommits_classification (commits : List Commit)
    (a : List (String × String)) :
    groupCommits commits a =
        groupCommits (commits.filter (fun c => !(jsStartsWith c.message "Merge "))) a
    ∧ (groupCommits commits a).unmatched = commits.filterMap specUnmatched
    ∧ ∀ g, (List.lookup g (groupCommits commits a).groups).getD [] =
        commits.filterMap (specGroupEntry a g) := by
  unfold groupCommits
  refine ⟨foldl_process_filter_merge a commits ⟨[], []⟩, ?_, fun g => ?_⟩
  · rw [foldl_process_unmatched a commits ⟨[], []⟩]
    rfl
  · rw [foldl_process_groups a g commits ⟨[], []⟩]
    rfl

end PublicActions

namespace PublicActions

/-- C4 counterexample: with the caller override `{foo: ""}`, the lowercase
key `foo` IS present in the merged type map (mapped to the empty string),
yet `groupCommits` files the commit under the verbatim parsed type `Foo`
rather than under the mapped value `""` — JavaScript `||` treats the
present-but-empty mapping as absent. -/
theorem chosenGroupName_empty_override_counterexample :
    typeMapLookup [("foo", "")] "foo" = some "" ∧
    (groupCommits [⟨"0123456789", "[EMBR-1] Foo: bar"⟩] [("foo", "")]).groups =
      [("Foo", [⟨"EMBR-1", "bar", "0123456"⟩])] := by
  exact ⟨rfl, by decide⟩

/-- C4 (amended): the group name chosen by `groupCommits` is
`typeMap[type.toLowerCase()]` whenever that lowercase key is present in the
merged map (defaults unioned with caller overrides, overrides winning) with
a non-empty value; for an absent key — and, by JavaScript `||` falsiness,
also for a key mapped to the empty string — it is the verbatim,
non-lower-cased parsed type string. -/
theorem chosenGroupName_spec (a : List (String × String)) (ty : String)
    (c : Commit) (p : ParsedCommit) :
    (∀ v, typeMapLookup a (jsToLower ty) = some v → v ≠ "" →
      chosenGroupName a ty = v)
    ∧ (typeMapLookup a (jsToLower ty) = none → chosenGroupName a ty = ty)
    ∧ (typeMapLookup a (jsToLower ty) = some "" → chosenGroupName a ty = ty)
    ∧ (∀ k v, List.lookup k a = some v → typeMapLookup a k = some v)
    ∧ (∀ k, List.lookup k a = none →
        typeMapLookup a k = List.lookup k DEFAULT_TYPES)
    ∧ (parseCommitMessage c.message = some p →
        jsStartsWith c.message "Merge " = false →
        (groupCommits [c] a).groups =
          [(chosenGroupName a p.type, [⟨p.ticket, p.description, shortHash c.hash⟩])]) := by
  refine ⟨?_, ?_, ?_, ?_, ?_, ?_⟩
  · intro v hv hne
    unfold chosenGroupName
    rw [hv]
    simp [hne]
  · intro hv
    unfold chosenGroupName
    rw [hv]
  · intro hv
    unfold chosenGroupName
    rw [hv]
    simp
  · intro k v hk
    unfold typeMapLookup
    rw [hk]
  · intro k hk
    unfold typeMapLookup
    rw [hk]
  · intro hp hm
    unfold groupCommits processCommit
    simp [hm, hp, insertGroup]

/-- Witness for the amended C4 at a concrete override and commit. -/
theorem chosenGroupName_spec_witness :
    chosenGroupName [("custom", "Custom Things")] "Custom" = "Custom Things" ∧
    (groupCommits [⟨"0123456789", "[EMBR-2] Custom: x"⟩]
        [("custom", "Custom Things")]).groups =
      [("Custom Things", [⟨"EMBR-2", "x", "0123456"⟩])] := by
  constructor
  · exact (chosenGroupName_spec [("custom", "Custom Things")] "Custom"
      ⟨"", ""⟩ ⟨"", "", ""⟩).1 "Custom Things" (by decide) (by decide)
  · have := (chosenGroupName_spec [("custom", "Custom Things")] "Custom"
      ⟨"0123456789", "[EMBR-2] Custom: x"⟩ ⟨"EMBR-2", "Custom", "x"⟩).2.2.2.2.2
      (by decide) (by decide)
    rw [this]
    decide

end PublicActions

namespace PublicActions

/-- C8: with no base reference supplied, `resolveTags` picks as base the tag
immediately following the current tag in the descending semver order; when
the current tag is the oldest (last in that order) the base falls back to
the initial commit and the logs mention "first tag"; and when the current
tag is absent from the tag list the resolution fails with a not-found
error. -/
theorem resolveTags_base_selection (rawTags : List String) (init cur : String)
    (hcur : cur ≠ "" ∧ cur ≠ "latest") :
    (∀ i, (sortTagsDesc rawTags).findIdx? (· = cur) = some i →
      i + 1 < (sortTagsDesc rawTags).length →
      resolveTags rawTags init cur "" =
        .ok (⟨cur, (sortTagsDesc rawTags).getD (i + 1) ""⟩,
          ["Using provided current tag: " ++ cur,
           "Automatically detected previous tag: " ++
             (sortTagsDesc rawTags).getD (i + 1) ""]))
    ∧ (∀ i, (sortTagsDesc rawTags).findIdx? (· = cur) = some i →
      i + 1 = (sortTagsDesc rawTags).length →
      resolveTags rawTags init cur "" =
        .ok (⟨cur, init⟩,
          ["Using provided current tag: " ++ cur,
           "This is the first tag, comparing from initial commit: " ++ shortHash init]) ∧
      ∃ res logs, resolveTags rawTags init cur "" = .ok (res, logs) ∧
        ∃ msg ∈ logs, jsIncludes msg "first tag" = true)
    ∧ ((sortTagsDesc rawTags).findIdx? (· = cur) = none →
      ∃ e, resolveTags rawTags init cur "" = .error e ∧
        jsIncludes e "not found" = true) := by
  have hcond : ¬(cur = "" || cur = "latest") = true := by
    simp [hcur.1, hcur.2]
  refine ⟨?_, ?_, ?_⟩
  · intro i hidx hlt
    have hne : i ≠ (sortTagsDesc rawTags).length - 1 := by omega
    have hprev : getPreviousTag (sortTagsDesc rawTags) cur =
        .ok (some ((sortTagsDesc rawTags).getD (i + 1) "")) := by
      unfold getPreviousTag
      rw [hidx]
      simp [hne]
    unfold resolveTags
    simp only [hcond, Bool.false_eq_true, if_false, if_true, hprev]
    rfl
  · intro i hidx heq
    have hi : i = (sortTagsDesc rawTags).length - 1 := by omega
    have hprev : getPreviousTag (sortTagsDesc rawTags) cur = .ok none := by
      unfold getPreviousTag
      rw [hidx]
      simp [hi]
    have hmain : resolveTags rawTags init cur "" =
        .ok (⟨cur, init⟩,
          ["Using provided current tag: " ++ cur,
           "This is the first tag, comparing from initial commit: " ++ shortHash init]) := by
      unfold resolveTags
      simp only [hcond, Bool.false_eq_true, if_false, if_true, hprev]
      rfl
    refine ⟨hmain, _, _, hmain, ?_⟩
    refine ⟨"This is the first tag, comparing from initial commit: " ++ shortHash init,
      by simp, ?_⟩
    unfold jsIncludes
    rw [decide_eq_true_eq]
    refine ⟨"This is the ".data, (", comparing from initial commit: " ++ shortHash init).data, ?_⟩
    simp [String.data_append, List.append_assoc]
  · intro hidx
    refine ⟨"Tag " ++ cur ++ " not found in repository", ?_, ?_⟩
    · have hprev : getPreviousTag (sortTagsDesc rawTags) cur =
          .error ("Tag " ++ cur ++ " not found in repository") := by
        unfold getPreviousTag
        rw [hidx]
      unfold resolveTags
      simp only [hcond, Bool.false_eq_true, if_false, if_true, hprev]
    · unfold jsIncludes
      rw [decide_eq_true_eq]
      refine ⟨("Tag " ++ cur ++ " ").data, " in repository".data, ?_⟩
      simp [String.data_append, List.append_assoc]

/-- Witness for C8: a two-tag repository picks the next-older tag, a one-tag
repository falls back to the initial commit and logs "first tag", and an
unknown tag fails. -/
theorem resolveTags_base_selection_witness :
    resolveTags ["v1.0.0", "v1.1.0"] "0123456789abcdef" "v1.1.0" "" =
      .ok (⟨"v1.1.0", "v1.0.0"⟩,
        ["Using provided current tag: v1.1.0",
         "Automatically detected previous tag: v1.0.0"]) ∧
    resolveTags ["v1.0.0"] "0123456789abcdef" "v1.0.0" "" =
      .ok (⟨"v1.0.0", "0123456789abcdef"⟩,
        ["Using provided current tag: v1.0.0",
         "This is the first tag, comparing from initial commit: 0123456"]) ∧
    (∃ e, resolveTags ["v1.0.0"] "0123456789abcdef" "v9.9.9" "" = .error e ∧
      jsIncludes e "not found" = true) := by
  refine ⟨?_, ?_, ?_⟩
  · have := (resolveTags_base_selection ["v1.0.0", "v1.1.0"] "0123456789abcdef"
      "v1.1.0" ⟨by decide, by decide⟩).1 0 (by decide) (by decide)
    rw [this]
    rfl
  · have := ((resolveTags_base_selection ["v1.0.0"] "0123456789abcdef"
      "v1.0.0" ⟨by decide, by decide⟩).2.1 0 (by decide) (by decide)).1
    rw [this]
    rfl
  · exact (resolveTags_base_selection ["v1.0.0"] "0123456789abcdef"
      "v9.9.9" ⟨by decide, by decide⟩).2.2 (by decide)

end PublicActions

namespace PublicActions

/-- C9: once tag resolution and commit retrieval succeed (classification and
rendering are pure), a throw from the optional changelog-persist step or
from the optional release-publish step is downgraded to a warning: the run
is not marked failed, and the changelog, current_tag and base_tag outputs —
set before those steps — are still reported. -/
theorem run_degrades_persist_publish_failures (cfg : RunConfig) (env : RunEnv)
    (tags : TagComparison) (logs : List String) (gitLog : String)
    (hres : resolveTags env.rawTags env.initialCommit cfg.currentTag cfg.baseTag =
      .ok (tags, logs))
    (hlog : env.gitLogResult = .ok gitLog) :
    (run cfg env).failedWith = none
    ∧ (∃ c, ("changelog", c) ∈ (run cfg env).outputs)
    ∧ ("current_tag", tags.currentTag) ∈ (run cfg env).outputs
    ∧ ("base_tag", tags.baseTag) ∈ (run cfg env).outputs
    ∧ (∀ e, cfg.createRelease = true → env.publishResult = .error e →
        ("Failed to create/update release: " ++ e) ∈ (run cfg env).warnings)
    ∧ (∀ e c, cfg.updateChangelog = true → ("changelog", c) ∈ (run cfg env).outputs →
        updateChangelogFileIO env tags.currentTag c = .error e →
        ("Failed to update CHANGELOG.md: " ++ e) ∈ (run cfg env).warnings) := by
  unfold run
  rw [hres, hlog]
  simp only []
  refine ⟨?_, ?_, ?_, ?_, ?_, ?_⟩
  · by_cases hcr : cfg.createRelease = true <;>
      cases hpub : env.publishResult <;>
      simp [hcr, hpub]
  · by_cases hcr : cfg.createRelease = true <;>
      cases hpub : env.publishResult <;>
      simp [hcr, hpub]
  · by_cases hcr : cfg.createRelease = true <;>
      cases hpub : env.publishResult <;>
      simp [hcr, hpub]
  · by_cases hcr : cfg.createRelease = true <;>
      cases hpub : env.publishResult <;>
      simp [hcr, hpub]
  · intro e hcr hpub
    by_cases hup : cfg.updateChangelog = true <;>
      simp [hcr, hpub, hup]
  · intro e c hup hmem hio
    have hceq : c = generateChangelog tags.currentTag
        (groupCommits (getCommitsBetween gitLog) cfg.additionalTypes)
        (sortGroupNames
          ((groupCommits (getCommitsBetween gitLog) cfg.additionalTypes).groups.map
            Prod.fst))
        cfg.includeUnmatched env.date := by
      by_cases hcr : cfg.createRelease = true
      · cases hpub : env.publishResult <;>
          · rw [hpub] at hmem
            simp [hcr] at hmem
            tauto
      · simp [hcr] at hmem
        tauto
    subst hceq
    rw [hio]
    by_cases hcr : cfg.createRelease = true <;>
      cases hpub : env.publishResult <;>
      simp [hcr, hpub, hup, hio]

end PublicActions

namespace PublicActions

/-- Witness for C9: with both the filesystem write and the release publish
failing, the run still completes unfailed, reports its outputs, and records
the publish failure as a warning. -/
theorem run_degrades_persist_publish_failures_witness :
    (run ⟨"v1.0.0", "", true, true, true, []⟩
      ⟨["v1.0.0"], "0123456789abcdef", .ok "aaaaaaaaaa|[EMBR-1] Feature: A",
        true, "# Changelog\n\n", some "disk full", .error "HTTP 500",
        "Jan 1, 2026"⟩).failedWith = none ∧
    ("current_tag", "v1.0.0") ∈
      (run ⟨"v1.0.0", "", true, true, true, []⟩
        ⟨["v1.0.0"], "0123456789abcdef", .ok "aaaaaaaaaa|[EMBR-1] Feature: A",
          true, "# Changelog\n\n", some "disk full", .error "HTTP 500",
          "Jan 1, 2026"⟩).outputs ∧
    ("Failed to create/update release: " ++ "HTTP 500") ∈
      (run ⟨"v1.0.0", "", true, true, true, []⟩
        ⟨["v1.0.0"], "0123456789abcdef", .ok "aaaaaaaaaa|[EMBR-1] Feature: A",
          true, "# Changelog\n\n", some "disk full", .error "HTTP 500",
          "Jan 1, 2026"⟩).warnings := by
  have h := run_degrades_persist_publish_failures
    ⟨"v1.0.0", "", true, true, true, []⟩
    ⟨["v1.0.0"], "0123456789abcdef", .ok "aaaaaaaaaa|[EMBR-1] Feature: A",
      true, "# Changelog\n\n", some "disk full", .error "HTTP 500",
      "Jan 1, 2026"⟩
    ⟨"v1.0.0", "0123456789abcdef"⟩
    ["Using provided current tag: v1.0.0",
     "This is the first tag, comparing from initial commit: 0123456"]
    "aaaaaaaaaa|[EMBR-1] Feature: A" rfl rfl
  exact ⟨h.1, h.2.2.1, h.2.2.2.2.1 "HTTP 500" rfl rfl⟩

end PublicActions

namespace PublicActions

theorem cmpCharList_self (a : List Char) : cmpCharList a a = 0 := by
  induction a with
  | nil => rfl
  | cons x as ih => simp [cmpCharList, lt_irrefl, ih]

theorem cmpCharList_anti (a : List Char) : ∀ b, cmpCharList b a = -(cmpCharList a b) := by
  induction a with
  | nil => intro b; cases b <;> simp [cmpCharList]
  | cons x as ih =>
    intro b
    cases b with
    | nil => simp [cmpCharList]
    | cons y bs =>
      simp only [cmpCharList]
      rcases lt_trichotomy x y with h | h | h
      · simp [h, asymm h]
      · subst h
        simp [lt_irrefl, ih bs]
      · simp [h, asymm h]

theorem cmpCharList_eq_zero (a : List Char) : ∀ b, cmpCharList a b = 0 → a = b := by
  induction a with
  | nil => intro b; cases b <;> simp [cmpCharList]
  | cons x as ih =>
    intro b
    cases b with
    | nil => simp [cmpCharList]
    | cons y bs =>
      simp only [cmpCharList]
      rcases lt_trichotomy x y with h | h | h
      · rw [if_pos h]; omega
      · subst h
        rw [if_neg (lt_irrefl x), if_neg (lt_irrefl x)]
        intro hz
        rw [ih bs hz]
      · rw [if_neg (asymm h), if_pos h]; omega

theorem cmpCharList_le_trans : ∀ a b c : List Char,
    cmpCharList a b ≤ 0 → cmpCharList b c ≤ 0 → cmpCharList a c ≤ 0 := by
  intro a
  induction a with
  | nil =>
    intro b c _ _
    cases c <;> simp [cmpCharList]
  | cons x as ih =>
    intro b c h1 h2
    cases b with
    | nil => simp [cmpCharList] at h1
    | cons y bs =>
      cases c with
      | nil => simp [cmpCharList] at h2
      | cons z cs =>
        simp only [cmpCharList] at h1 h2 ⊢
        by_cases hxy : x < y
        · by_cases hxz : x < z
          · rw [if_pos hxz]; omega
          · by_cases hyz : y < z
            · exact absurd (lt_trans hxy hyz) hxz
            · by_cases hzy : z < y
              · rw [if_neg hyz, if_pos hzy] at h2; omega
              · have heq : y = z := le_antisymm (not_lt.mp hzy) (not_lt.mp hyz)
                subst heq
                exact absurd hxy hxz
        · by_cases hyx : y < x
          · rw [if_neg hxy, if_pos hyx] at h1; omega
          · have heq : x = y := le_antisymm (not_lt.mp hyx) (not_lt.mp hxy)
            subst heq
            by_cases hxz : x < z
            · rw [if_pos hxz]; omega
            · by_cases hzx : z < x
              · rw [if_neg hxz, if_pos hzx] at h2; omega
              · have heq2 : x = z := le_antisymm (not_lt.mp hzx) (not_lt.mp hxz)
                subst heq2
                rw [if_neg (lt_irrefl x), if_neg (lt_irrefl x)] at h1 h2 ⊢
                exact ih bs cs h1 h2

theorem jsIndexOf_not_mem (l : List String) (x : String)
    (h : l.contains x = false) : jsIndexOf l x = -1 := by
  unfold jsIndexOf
  have hnone : l.findIdx? (· = x) = none := by
    rw [List.findIdx?_eq_none_iff]
    intro u hu
    simp only [decide_eq_false_iff_not]
    intro he
    subst he
    have hc : l.contains u = true :=
      List.contains_iff_exists_mem_beq.mpr ⟨u, hu, by simp⟩
    rw [h] at hc
    exact absurd hc (by decide)
  rw [hnone]

theorem jsIndexOf_inj (l : List String) (x y : String)
    (hx : jsIndexOf l x ≠ -1) (heq : jsIndexOf l x = jsIndexOf l y) : x = y := by
  cases hix : l.findIdx? (· = x) with
  | none => simp [jsIndexOf, hix] at hx
  | some i =>
    cases hiy : l.findIdx? (· = y) with
    | none =>
      simp only [jsIndexOf, hix, hiy] at heq
      omega
    | some j =>
      simp only [jsIndexOf, hix, hiy] at heq
      have hij : i = j := by omega
      subst hij
      rw [List.findIdx?_eq_some_iff_getElem] at hix hiy
      obtain ⟨hi, hpx, -⟩ := hix
      obtain ⟨hj, hpy, -⟩ := hiy
      simp only [decide_eq_true_eq] at hpx hpy
      rw [← hpx, ← hpy]

theorem groupCmp_both (a b : String) (hA : jsIndexOf priorityOrder a ≠ -1)
    (hB : jsIndexOf priorityOrder b ≠ -1) :
    groupCmp a b = jsIndexOf priorityOrder a - jsIndexOf priorityOrder b := by
  unfold groupCmp
  simp [hA, hB]

theorem groupCmp_prio_left (a b : String) (hA : jsIndexOf priorityOrder a ≠ -1)
    (hB : jsIndexOf priorityOrder b = -1) : groupCmp a b = -1 := by
  unfold groupCmp
  simp [hA, hB]

theorem groupCmp_prio_right (a b : String) (hA : jsIndexOf priorityOrder a = -1)
    (hB : jsIndexOf priorityOrder b ≠ -1) : groupCmp a b = 1 := by
  unfold groupCmp
  simp [hA, hB]

theorem groupCmp_none (a b : String) (hA : jsIndexOf priorityOrder a = -1)
    (hB : jsIndexOf priorityOrder b = -1) : groupCmp a b = localeCompareInt a b := by
  unfold groupCmp
  simp [hA, hB]

theorem groupCmp_anti (a b : String) : groupCmp b a = -(groupCmp a b) := by
  by_cases hA : jsIndexOf priorityOrder a = -1 <;>
    by_cases hB : jsIndexOf priorityOrder b = -1
  · rw [groupCmp_none b a hB hA, groupCmp_none a b hA hB]
    exact cmpCharList_anti a.data b.data
  · rw [groupCmp_prio_left b a hB hA, groupCmp_prio_right a b hA hB]
  · rw [groupCmp_prio_right b a hB hA, groupCmp_prio_left a b hA hB]
    decide
  · rw [groupCmp_both b a hB hA, groupCmp_both a b hA hB]
    omega

theorem groupCmp_le_trans (a b c : String)
    (h1 : groupCmp a b ≤ 0) (h2 : groupCmp b c ≤ 0) : groupCmp a c ≤ 0 := by
  by_cases hA : jsIndexOf priorityOrder a = -1 <;>
    by_cases hB : jsIndexOf priorityOrder b = -1 <;>
    by_cases hC : jsIndexOf priorityOrder c = -1
  · rw [groupCmp_none a b hA hB] at h1
    rw [groupCmp_none b c hB hC] at h2
    rw [groupCmp_none a c hA hC]
    exact cmpCharList_le_trans a.data b.data c.data h1 h2
  · rw [groupCmp_prio_right b c hB hC] at h2
    omega
  · rw [groupCmp_prio_right a b hA hB] at h1
    omega
  · rw [groupCmp_prio_right a b hA hB] at h1
    omega
  · rw [groupCmp_prio_left a c hA hC]
    omega
  · rw [groupCmp_prio_right b c hB hC] at h2
    omega
  · rw [groupCmp_prio_left a c hA hC]
    omega
  · rw [groupCmp_both a b hA hB] at h1
    rw [groupCmp_both b c hB hC] at h2
    rw [groupCmp_both a c hA hC]
    omega

theorem groupCmp_le_antisymm (a b : String)
    (h1 : groupCmp a b ≤ 0) (h2 : groupCmp b a ≤ 0) : a = b := by
  have hz : groupCmp a b = 0 := by
    have := groupCmp_anti a b
    omega
  by_cases hA : jsIndexOf priorityOrder a = -1 <;>
    by_cases hB : jsIndexOf priorityOrder b = -1
  · rw [groupCmp_none a b hA hB] at hz
    exact String.ext (cmpCharList_eq_zero a.data b.data hz)
  · rw [groupCmp_prio_right a b hA hB] at hz
    omega
  · rw [groupCmp_prio_left a b hA hB] at hz
    omega
  · rw [groupCmp_both a b hA hB] at hz
    exact jsIndexOf_inj priorityOrder a b hA (by omega)

end PublicActions

namespace PublicActions

theorem count_filter_beq (names : List String) (a p : String) :
    List.count a (names.filter (fun n => n == p)) =
      if a = p then List.count a names else 0 := by
  by_cases h : a = p
  · subst h
    rw [if_pos rfl]
    exact List.count_filter (by simp)
  · rw [if_neg h, List.count_eq_zero]
    intro hmem
    rw [List.mem_filter] at hmem
    exact h (eq_of_beq hmem.2)

theorem count_filter_contains (names : List String) (a : String) :
    List.count a (names.filter (fun n => priorityOrder.contains n)) =
      if priorityOrder.contains a = true then List.count a names else 0 := by
  by_cases h : priorityOrder.contains a = true
  · rw [if_pos h]
    exact List.count_filter h
  · rw [if_neg h, List.count_eq_zero]
    intro hmem
    rw [List.mem_filter] at hmem
    exact h hmem.2

theorem priority_blocks_perm (names : List String) :
    ((priorityOrder.map (fun p => names.filter (fun n => n == p))).flatten).Perm
      (names.filter (fun n => priorityOrder.contains n)) := by
  rw [List.perm_iff_count]
  intro a
  rw [count_filter_contains]
  simp only [priorityOrder, List.map_cons, List.map_nil, List.flatten_cons,
    List.flatten_nil, List.append_nil, List.count_append, count_filter_beq]
  by_cases h1 : a = "Features"
  · subst h1; simp
  · by_cases h2 : a = "Bug Fixes"
    · subst h2; simp
    · by_cases h3 : a = "Documentation"
      · subst h3; simp
      · by_cases h4 : a = "Chores"
        · subst h4; simp
        · have hc : (["Features", "Bug Fixes", "Documentation", "Chores"] :
              List String).contains a = false := by
            simp [List.contains_eq_any_beq, h1, h2, h3, h4]
          simp [h1, h2, h3, h4, hc]

theorem mem_priority_jsIndexOf {p : String} (hp : p ∈ priorityOrder) :
    jsIndexOf priorityOrder p ≠ -1 := by
  simp only [priorityOrder, List.mem_cons, List.not_mem_nil, or_false] at hp
  rcases hp with rfl | rfl | rfl | rfl <;> decide

theorem localeCompare_le_trans (a b c : String) :
    localeCompareInt a b ≤ 0 → localeCompareInt b c ≤ 0 → localeCompareInt a c ≤ 0 :=
  cmpCharList_le_trans a.data b.data c.data

theorem localeCompare_total (a b : String) :
    localeCompareInt a b ≤ 0 ∨ localeCompareInt b a ≤ 0 := by
  have h : localeCompareInt b a = -(localeCompareInt a b) := cmpCharList_anti a.data b.data
  omega

/-- C5: `sortGroupNames` places the names from the fixed priority list
Features, Bug Fixes, Documentation, Chores first, in exactly that relative
order, followed by the remaining names sorted alphabetically; only names
present in the input appear.  In particular
`{"Chores","Features","Documentation","Bug Fixes"}` sorts to
`["Features","Bug Fixes","Documentation","Chores"]`. -/
theorem sortGroupNames_spec (names : List String) :
    sortGroupNames names =
      ((priorityOrder.map (fun p => names.filter (fun n => n == p))).flatten) ++
        List.insertionSort (fun a b => localeCompareInt a b ≤ 0)
          (names.filter (fun n => !(priorityOrder.contains n)))
    ∧ sortGroupNames ["Chores", "Features", "Documentation", "Bug Fixes"] =
      ["Features", "Bug Fixes", "Documentation", "Chores"] := by
  constructor
  · haveI htI : IsTrans String (fun a b => groupCmp a b ≤ 0) := ⟨groupCmp_le_trans⟩
    haveI htoI : IsTotal String (fun a b => groupCmp a b ≤ 0) :=
      ⟨fun a b => by have := groupCmp_anti a b; omega⟩
    haveI haI : IsAntisymm String (fun a b => groupCmp a b ≤ 0) := ⟨groupCmp_le_antisymm⟩
    haveI htI2 : IsTrans String (fun a b => localeCompareInt a b ≤ 0) :=
      ⟨localeCompare_le_trans⟩
    haveI htoI2 : IsTotal String (fun a b => localeCompareInt a b ≤ 0) :=
      ⟨localeCompare_total⟩
    apply List.eq_of_perm_of_sorted (r := fun a b => groupCmp a b ≤ 0)
    · have hR : (((priorityOrder.map (fun p => names.filter (fun n => n == p))).flatten) ++
          List.insertionSort (fun a b => localeCompareInt a b ≤ 0)
            (names.filter (fun n => !(priorityOrder.contains n)))).Perm names := by
        refine ((priority_blocks_perm names).append
          (List.perm_insertionSort _ _)).trans ?_
        exact List.filter_append_perm (fun n => priorityOrder.contains n) names
      exact (List.perm_insertionSort _ names).trans hR.symm
    · exact List.sorted_insertionSort _ names
    · rw [List.Sorted, List.pairwise_append]
      refine ⟨?_, ?_, ?_⟩
      · rw [List.pairwise_flatten]
        constructor
        · intro l' hl'
          rw [List.mem_map] at hl'
          obtain ⟨p, hp, rfl⟩ := hl'
          apply List.pairwise_of_forall_mem_list
          intro x hx y hy
          rw [List.mem_filter] at hx hy
          rw [eq_of_beq hx.2, eq_of_beq hy.2]
          simp only [priorityOrder, List.mem_cons, List.not_mem_nil, or_false] at hp
          rcases hp with rfl | rfl | rfl | rfl <;> decide
        · rw [List.pairwise_map]
          simp only [priorityOrder, List.pairwise_cons, List.mem_cons,
            List.not_mem_nil, or_false, List.Pairwise.nil]
          refine ⟨?_, ?_, ?_, ?_⟩
          · intro q hq x hx y hy
            rw [List.mem_filter] at hx hy
            rw [eq_of_beq hx.2, eq_of_beq hy.2]
            rcases hq with rfl | rfl | rfl <;> decide
          · intro q hq x hx y hy
            rw [List.mem_filter] at hx hy
            rw [eq_of_beq hx.2, eq_of_beq hy.2]
            rcases hq with rfl | rfl <;> decide
          · intro q hq x hx y hy
            rw [List.mem_filter] at hx hy
            rw [eq_of_beq hx.2, eq_of_beq hy.2]
            rcases hq with rfl
            decide
          · simp
      · have hs : List.Sorted (fun a b => localeCompareInt a b ≤ 0)
            (List.insertionSort (fun a b => localeCompareInt a b ≤ 0)
              (names.filter (fun n => !(priorityOrder.contains n)))) :=
          List.sorted_insertionSort _ _
        refine List.Pairwise.imp_of_mem ?_ hs
        intro a b ha hb hr
        have hma : a ∈ names.filter (fun n => !(priorityOrder.contains n)) :=
          (List.perm_insertionSort _ _).mem_iff.mp ha
        have hmb : b ∈ names.filter (fun n => !(priorityOrder.contains n)) :=
          (List.perm_insertionSort _ _).mem_iff.mp hb
        rw [List.mem_filter] at hma hmb
        have hia : jsIndexOf priorityOrder a = -1 :=
          jsIndexOf_not_mem _ _ (by simpa using hma.2)
        have hib : jsIndexOf priorityOrder b = -1 :=
          jsIndexOf_not_mem _ _ (by simpa using hmb.2)
        rw [groupCmp_none a b hia hib]
        exact hr
      · intro a ha b hb
        rw [List.mem_flatten] at ha
        obtain ⟨blk, hblk, hain⟩ := ha
        rw [List.mem_map] at hblk
        obtain ⟨p, hp, rfl⟩ := hblk
        rw [List.mem_filter] at hain
        have hap : a = p := eq_of_beq hain.2
        subst hap
        have hia : jsIndexOf priorityOrder a ≠ -1 := mem_priority_jsIndexOf hp
        have hmb : b ∈ names.filter (fun n => !(priorityOrder.contains n)) :=
          (List.perm_insertionSort _ _).mem_iff.mp hb
        rw [List.mem_filter] at hmb
        have hib : jsIndexOf priorityOrder b = -1 :=
          jsIndexOf_not_mem _ _ (by simpa using hmb.2)
        rw [groupCmp_prio_left a b hia hib]
        omega
  · decide

end PublicActions

namespace PublicActions

/-- Shape of the `(EMBR-\d+)` capture (spec-side characterization used in the
C3 statement): the letters `EMBR` case-insensitively, a hyphen, then a
non-empty run of digits. -/
def isTicketL (t : List Char) : Bool :=
  match t with
  | c1 :: c2 :: c3 :: c4 :: '-' :: ds =>
    lowEq c1 'e' && lowEq c2 'm' && lowEq c3 'b' && lowEq c4 'r' &&
      !ds.isEmpty && ds.all Char.isDigit
  | _ => false

theorem takeTicket_sound (l t r : List Char) (h : takeTicket l = some (t, r)) :
    isTicketL t = true ∧ l = t ++ r := by
  unfold takeTicket at h
  split at h
  case h_2 => exact absurd h (by simp)
  case h_1 c1 c2 c3 c4 rest =>
    by_cases hcond : (lowEq c1 'e' && lowEq c2 'm' && lowEq c3 'b' && lowEq c4 'r') = true
    · rw [if_pos hcond] at h
      cases hds : rest.takeWhile Char.isDigit with
      | nil => rw [hds] at h; simp at h
      | cons d ds' =>
        rw [hds] at h
        simp only [Option.some.injEq, Prod.mk.injEq] at h
        obtain ⟨ht, hr⟩ := h
        subst ht
        subst hr
        constructor
        · unfold isTicketL
          have hall : (d :: ds').all Char.isDigit = true := by
            rw [← hds]
            exact List.all_takeWhile
          simp [hcond, hall]
        · have : rest = (d :: ds') ++ rest.dropWhile Char.isDigit := by
            rw [← hds]
            exact (List.takeWhile_append_dropWhile Char.isDigit rest).symm
          conv_lhs => rw [this]
          simp
    · rw [if_neg hcond] at h
      exact absurd h (by simp)

theorem takeTicket_complete (t r : List Char) (h : isTicketL t = true) :
    takeTicket (t ++ ']' :: r) = some (t, ']' :: r) := by
  unfold isTicketL at h
  split at h
  case h_2 => exact absurd h (by simp)
  case h_1 c1 c2 c3 c4 ds =>
    simp only [Bool.and_eq_true, Bool.not_eq_true'] at h
    obtain ⟨⟨⟨⟨⟨he, hm⟩, hb⟩, hr⟩, hne⟩, hall⟩ := h
    have hsplit := takeWhile_append_cons Char.isDigit ds ']' r hall (by decide)
    cases ds with
    | nil => simp at hne
    | cons d ds' =>
      simp only [List.cons_append] at hsplit ⊢
      simp only [takeTicket]
      rw [if_pos (by simp [he, hm, hb, hr])]
      rw [hsplit.1, hsplit.2]

theorem descMatches_ne_nil (l : List Char) (h : descMatches l = true) : l ≠ [] := by
  intro he
  subst he
  simp [descMatches] at h

theorem descMatches_of_noterm (l : List Char)
    (hl : ∀ c ∈ l, jsLineTerm c = false) (hne : l ≠ []) : descMatches l = true := by
  unfold descMatches
  rw [List.any_eq_true]
  refine ⟨0, ?_, ?_⟩
  · rw [List.mem_range]
    exact List.length_pos.mpr hne
  · simp only [List.take_zero, List.all_nil, Bool.true_and, List.drop_zero]
    rw [List.all_eq_true]
    intro c hc
    simp [hl c hc]

theorem jsWs_not_colon {c : Char} (h : jsWs c = true) : (!(c = ':')) = true := by
  simp only [Bool.not_eq_true', decide_eq_false_iff_not]
  intro he
  subst he
  exact absurd h (by decide)

end PublicActions

namespace PublicActions

/-- C3: on messages without line terminators (a git subject line),
`parseCommitMessage` matches exactly the shape: opening bracket, ticket
`EMBR-<digits>` (case-insensitive), closing bracket, whitespace, a type
label up to the next colon, a colon, and a non-empty description; on a
match it returns the ticket upper-cased, the type trimmed and the
description trimmed, and on any other message it returns `none`.  In
particular `"[EMBR-1234] Feature: Add login"` parses to
`{ticket := "EMBR-1234", type := "Feature", description := "Add login"}`
and the bracket-less `"EMBR-1234 Feature: x"` does not parse. -/
theorem parseCommitMessage_spec (msg : String)
    (hline : ∀ c ∈ msg.data, jsLineTerm c = false) :
    (∀ r, parseCommitMessage msg = some r ↔
      ∃ tick ws ty rest : List Char,
        msg.data = '[' :: (tick ++ ']' :: (ws ++ (ty ++ ':' :: rest))) ∧
        isTicketL tick = true ∧
        ws ≠ [] ∧ ws.all jsWs = true ∧
        ty ≠ [] ∧ ty.all (fun c => !(c = ':')) = true ∧
        rest ≠ [] ∧
        r = ⟨jsToUpper ⟨tick⟩, ⟨jsTrimL ty⟩, ⟨jsTrimL rest⟩⟩)
    ∧ parseCommitMessage "[EMBR-1234] Feature: Add login" =
        some ⟨"EMBR-1234", "Feature", "Add login"⟩
    ∧ parseCommitMessage "EMBR-1234 Feature: x" = none := by
  refine ⟨?_, by decide, by decide⟩
  intro r
  unfold parseCommitMessage
  constructor
  · intro h
    cases hm0 : msg.data with
    | nil => rw [hm0] at h; exact absurd h (by simp [parseCM])
    | cons c0 r0 =>
      rw [hm0] at h
      simp only [parseCM] at h
      by_cases hc0 : c0 = '['
      case neg => rw [if_neg hc0] at h; exact absurd h (by simp)
      case pos =>
      subst hc0
      rw [if_pos rfl] at h
      cases htk : takeTicket r0 with
      | none => rw [htk] at h; exact absurd h (by simp)
      | some pr =>
        obtain ⟨tick, r1⟩ := pr
        rw [htk] at h
        simp only [] at h
        cases r1 with
        | nil => exact absurd h (by simp)
        | cons c5 r2 =>
          simp only [] at h
          by_cases hc5 : c5 = ']'
          case neg => rw [if_neg hc5] at h; exact absurd h (by simp)
          case pos =>
          subst hc5
          rw [if_pos rfl] at h
          cases hdw : r2.dropWhile (fun c => !(c = ':')) with
          | nil => rw [hdw] at h; exact absurd h (by simp)
          | cons c6 r3 =>
            rw [hdw] at h
            simp only [] at h
            by_cases hc6 : c6 = ':'
            case neg => rw [if_neg hc6] at h; exact absurd h (by simp)
            case pos =>
            subst hc6
            rw [if_pos rfl] at h
            by_cases hcond : (2 ≤ (r2.takeWhile (fun c => !(c = ':'))).length &&
                jsWs ((r2.takeWhile (fun c => !(c = ':'))).headD ':') &&
                descMatches r3) = true
            case neg => rw [if_neg hcond] at h; exact absurd h (by simp)
            case pos =>
            rw [if_pos hcond] at h
            simp only [Option.some.injEq] at h
            simp only [Bool.and_eq_true, decide_eq_true_eq] at hcond
            obtain ⟨⟨hlen, hhead⟩, hdm⟩ := hcond
            obtain ⟨htks, hr0⟩ := takeTicket_sound r0 tick (']' :: r2) htk
            cases hp : r2.takeWhile (fun c => !(c = ':')) with
            | nil => rw [hp] at hlen; simp at hlen
            | cons w pre' =>
              have hr2 : r2 = (w :: pre') ++ ':' :: r3 := by
                rw [← hp, ← hdw]
                exact (List.takeWhile_append_dropWhile _ r2).symm
              refine ⟨tick, [w], pre', r3, ?_, htks, by simp, ?_, ?_, ?_, ?_, ?_⟩
              · rw [hr0, hr2]
                simp
              · rw [hp] at hhead
                simp only [List.headD_cons] at hhead
                simp [hhead]
              · rw [hp] at hlen
                simp only [List.length_cons] at hlen
                intro he
                subst he
                simp at hlen
              · have := List.all_takeWhile (p := fun c => !(c = ':')) (l := r2)
                rw [hp] at this
                simp only [List.all_cons, Bool.and_eq_true] at this
                exact this.2
              · exact descMatches_ne_nil r3 hdm
              · rw [← h]
                have : jsTrimL (r2.takeWhile (fun c => !(c = ':'))) = jsTrimL pre' := by
                  rw [hp]
                  have hw : jsWs w = true := by
                    rw [hp] at hhead
                    simpa using hhead
                  have := jsTrimL_ws_append [w] pre' (by simp [hw])
                  simpa using this
                rw [this]
  · rintro ⟨tick, ws, ty, rest, hm, htick, hwsne, hwsall, htyne, htyall, hrestne, hr⟩
    subst hr
    rw [hm]
    simp only [parseCM]
    rw [if_pos trivial]
    rw [takeTicket_complete tick _ htick]
    simp only []
    rw [if_pos trivial]
    have hnc : (ws ++ ty).all (fun c => !(c = ':')) = true := by
      rw [List.all_append, Bool.and_eq_true]
      constructor
      · rw [List.all_eq_true]
        intro c hc
        exact jsWs_not_colon (List.all_eq_true.mp hwsall c hc)
      · exact htyall
    have hsp := takeWhile_append_cons (fun c => !(c = ':')) (ws ++ ty) ':' rest hnc
      (by decide)
    have hassoc : ws ++ (ty ++ ':' :: rest) = (ws ++ ty) ++ ':' :: rest :=
      (List.append_assoc ws ty _).symm
    rw [hassoc, hsp.1, hsp.2]
    simp only []
    rw [if_pos trivial]
    have hcond : (2 ≤ (ws ++ ty).length && jsWs ((ws ++ ty).headD ':') &&
        descMatches rest) = true := by
      simp only [Bool.and_eq_true, decide_eq_true_eq]
      refine ⟨⟨?_, ?_⟩, ?_⟩
      · rw [List.length_append]
        have h1 := List.length_pos.mpr hwsne
        have h2 := List.length_pos.mpr htyne
        omega
      · cases ws with
        | nil => exact absurd rfl hwsne
        | cons w ws' =>
          simp only [List.cons_append, List.headD_cons]
          simp only [List.all_cons, Bool.and_eq_true] at hwsall
          exact hwsall.1
      · refine descMatches_of_noterm rest ?_ hrestne
        intro c hc
        apply hline
        rw [hm]
        simp [hc]
    rw [if_pos hcond]
    rw [jsTrimL_ws_append ws ty hwsall]

end PublicActions

namespace PublicActions

/-- Witness for C3 at a concrete single-line message, exercising the shape
characterization in the forward-constructing direction. -/
theorem parseCommitMessage_spec_witness :
    parseCommitMessage "[EMBR-7] Feat: x" = some ⟨"EMBR-7", "Feat", "x"⟩ :=
  ((parseCommitMessage_spec "[EMBR-7] Feat: x" (by decide)).1
      ⟨"EMBR-7", "Feat", "x"⟩).mpr
    ⟨"EMBR-7".data, [' '], "Feat".data, [' ', 'x'], by decide, by decide, by decide,
      by decide, by decide, by decide, by decide, by decide⟩

end PublicActions
